import Mathlib

/-!
# Verification of the CrowdCount shared-state and zone-tracking core

Shallow embedding of the data model and operations of
`Code/shared_state.py` (class `SharedState`) and
`Code/detector/integrated_detector.py` (class `IntegratedPeopleDetector`).

Modelling conventions:
* Python `dict`s (insertion-ordered, unique keys) are association lists
  `List (String × α)`; `dict.get`/`[]` is `alLookup` (first match) and
  `dict[k] = v` is `alInsert` (update in place, else append), which agrees
  with CPython's behaviour on every state whose key list is duplicate-free
  — the only states a real `dict` can take.
* Python `set`s of integer track ids are `Finset ℤ`; `set.add` is `insert`.
* `collections.deque(maxlen=3600)` is a list together with the
  drop-from-the-left-on-overflow discipline of `histAppend`.
* Python integers are `ℤ` (counts, thresholds, coordinates); `datetime`
  timestamps are opaque naturals threaded through `update_counts`.
* The density accumulator (`numpy float32` grid) is `List (List ℚ)`;
  the OpenCV post-processing of `get_heatmap_image` past the
  normalisation step (GaussianBlur, COLORMAP_JET, PNG encoding) is
  pixel-count-preserving external image plumbing and is not modelled:
  the embedded `get_heatmap_image` returns the normalised raster that
  the Python code hands to that pipeline.
* `cv2.pointPolygonTest(contour, pt, False)` with an integer contour and
  an integer point runs OpenCV's exact integer crossing-number algorithm
  (returns `0` on the contour, `1` inside, `-1` outside); `pptAux` below
  is that algorithm transcribed over `ℤ`, with edges enumerated the way
  OpenCV does (`v` starts at the last vertex).
-/

/-! ## Association-list model of Python dicts -/

abbrev ZoneName := String

/-- `d.get(k)` / `d.get(k, None)`: first binding of `k`, if any. -/
def alLookup {α : Type} (k : ZoneName) : List (ZoneName × α) → Option α
  | [] => none
  | (k', v) :: rest => if k' = k then some v else alLookup k rest

/-- `d[k] = v`: replace the binding in place if `k` is present
(CPython keeps the key's position), otherwise append. -/
def alInsert {α : Type} (k : ZoneName) (v : α) : List (ZoneName × α) → List (ZoneName × α)
  | [] => [(k, v)]
  | (k', v') :: rest => if k' = k then (k', v) :: rest else (k', v') :: alInsert k v rest

/-- `d[k] = f(d.get(k, dflt))`: the read-modify-write used for
`zone_current_count` and the `defaultdict` access of `zone_visitors`. -/
def alUpdate {α : Type} (k : ZoneName) (f : α → α) (dflt : α) :
    List (ZoneName × α) → List (ZoneName × α)
  | [] => [(k, f dflt)]
  | (k', v) :: rest => if k' = k then (k', f v) :: rest else (k', v) :: alUpdate k f dflt rest

/-! ## Shared state (`Code/shared_state.py`) -/

/-- One element of the `_history` deque:
`{'timestamp': …, 'total_count': …, 'zone_counts': …}`. -/
structure HistoryEntry where
  timestamp : Nat
  total_count : Int
  zone_counts : List (ZoneName × Int)
deriving Repr, DecidableEq

/-- The mutable fields of the `SharedState` singleton that the claims
touch (the density accumulator is modelled separately, see
`get_heatmap_image`). -/
structure SharedState where
  total_count : Int
  zone_counts : List (ZoneName × Int)
  zone_visitors : List (ZoneName × Finset Int)
  person_coordinates : List (Int × Int)
  history : List HistoryEntry
  global_threshold : Int
  zone_thresholds : List (ZoneName × Int)
  last_update : Option Nat
  detection_running : Bool
deriving DecidableEq

/-- The state built by `SharedState.__init__`. -/
def initialState : SharedState :=
  { total_count := 0
    zone_counts := []
    zone_visitors := []
    person_coordinates := []
    history := []
    global_threshold := 50
    zone_thresholds := []
    last_update := none
    detection_running := false }

/-- `deque(maxlen=3600).append(e)`: append on the right, evict from the
left once the length exceeds 3600. -/
def histAppend (h : List HistoryEntry) (e : HistoryEntry) : List HistoryEntry :=
  if 3600 < (h ++ [e]).length then (h ++ [e]).drop ((h ++ [e]).length - 3600)
  else h ++ [e]

/-- The argument tuple of one `update_counts` call (the `datetime.now()`
read inside the critical section is the `ts` field). -/
structure UpdateArgs where
  total_count : Int
  zone_counts : List (ZoneName × Int)
  zone_visitors : List (ZoneName × Finset Int)
  coordinates : List (Int × Int)
  ts : Nat
deriving DecidableEq

/-- `SharedState.update_counts`: replace the count fields, stamp
`_last_update`, and append one history entry. -/
def update_counts (s : SharedState) (u : UpdateArgs) : SharedState :=
  { s with
    total_count := u.total_count
    zone_counts := u.zone_counts
    zone_visitors := u.zone_visitors
    person_coordinates := u.coordinates
    last_update := some u.ts
    history := histAppend s.history
      ⟨u.ts, u.total_count, u.zone_counts⟩ }

/-- A whole run of the producer loop: `update_counts` once per frame. -/
def applyUpdates (s : SharedState) (us : List UpdateArgs) : SharedState :=
  us.foldl update_counts s

/-- The history entry recorded for one `update_counts` call. -/
def entryOf (u : UpdateArgs) : HistoryEntry :=
  ⟨u.ts, u.total_count, u.zone_counts⟩

/-- A concrete update used by witnesses: 7 people total, zone-counts map
with only key `A`, a non-empty visitor set for zone `B`. -/
def sampleUpdate : UpdateArgs :=
  { total_count := 7
    zone_counts := [("A", 1)]
    zone_visitors := [("B", {5})]
    coordinates := []
    ts := 1 }

/-- `SharedState.get_history(limit)`: `list(self._history)[-limit:]`.
CPython slice semantics: for `limit > 0` this is the last
`min(limit, len)` elements; for `limit = 0` the slice `[-0:] = [0:]` is
the *whole* list. -/
def get_history (s : SharedState) (limit : Nat) : List HistoryEntry :=
  if limit = 0 then s.history else s.history.drop (s.history.length - limit)

/-- `SharedState.get_zone_counts` result rows:
`{'current': …, 'total_visitors': …}`. -/
structure ZoneStat where
  current : Int
  total_visitors : Nat
deriving Repr, DecidableEq

/-- `SharedState.get_zone_counts`: one row per key of `_zone_counts`,
pairing the current count with the size of that zone's visitor set
(empty set when the zone has no `_zone_visitors` entry). -/
def get_zone_counts (s : SharedState) : List (ZoneName × ZoneStat) :=
  s.zone_counts.map fun p =>
    (p.1, ⟨p.2, ((alLookup p.1 s.zone_visitors).getD ∅).card⟩)

/-! ## Alert evaluation (`SharedState.check_alerts`) -/

/-- One alert record: `{'type': …, 'threshold': …, 'current': …,
'exceeded': True}` (the `'zone'` name field duplicates the dict key and
is dropped). -/
structure Alert where
  typ : String
  threshold : Int
  current : Int
  exceeded : Bool
deriving Repr, DecidableEq

/-- The body of the per-zone branch of `check_alerts`:
`threshold = self._zone_thresholds.get(zone_name)` followed by
`if threshold and current > threshold` — a missing threshold is `None`
(falsy) and a stored threshold of `0` is likewise falsy. -/
def zoneAlertCond (s : SharedState) (z : ZoneName) (c : Int) : Prop :=
  ∃ t, alLookup z s.zone_thresholds = some t ∧ t ≠ 0 ∧ t < c

instance (s : SharedState) (z : ZoneName) (c : Int) : Decidable (zoneAlertCond s z c) := by
  unfold zoneAlertCond
  cases alLookup z s.zone_thresholds with
  | none => exact .isFalse (by simp)
  | some t => exact decidable_of_iff (t ≠ 0 ∧ t < c) (by simp)

/-- `SharedState.check_alerts`: start from the global alert (present iff
`total_count > global_threshold`), then walk `_zone_counts` in order and
store a zone alert under the zone's key whenever a truthy per-zone
threshold is strictly exceeded. -/
def check_alerts (s : SharedState) : List (ZoneName × Alert) :=
  let a0 : List (ZoneName × Alert) :=
    if s.global_threshold < s.total_count then
      [("global", ⟨"global", s.global_threshold, s.total_count, true⟩)]
    else []
  s.zone_counts.foldl
    (fun acc p =>
      if zoneAlertCond s p.1 p.2 then
        alInsert p.1 ⟨"zone", (alLookup p.1 s.zone_thresholds).getD 0, p.2, true⟩ acc
      else acc)
    a0

/-! ## Density accumulator rendering (`SharedState.get_heatmap_image`) -/

/-- `heatmap.max()` over a non-negative `float32` accumulator (modelled
with seed `0`, which agrees with `numpy` on every grid the accumulator
can hold: entries are only ever `0` or values painted by `cv2.circle`). -/
def gridMax (g : List (List ℚ)) : ℚ :=
  (g.map fun row => row.foldl max 0).foldl max 0

/-- The normalisation step of `get_heatmap_image`:
`(heatmap / heatmap.max() * 255).astype(np.uint8)` when the maximum is
positive, else `heatmap.astype(np.uint8)` (float→uint8 truncates toward
zero). -/
def normalizeHeatmap (g : List (List ℚ)) : List (List ℕ) :=
  if 0 < gridMax g then
    g.map fun row => row.map fun v => (⌊v / gridMax g * 255⌋).toNat
  else
    g.map fun row => row.map fun v => (⌊v⌋).toNat

/-- `SharedState.get_heatmap_image`: `None` while `_heatmap_accumulator`
is `None`, otherwise the normalised raster (the subsequent GaussianBlur /
COLORMAP_JET / PNG encoding, which consume this raster pixelwise, are
outside the model). -/
def get_heatmap_image (acc : Option (List (List ℚ))) : Option (List (List ℕ)) :=
  match acc with
  | none => none
  | some g => some (normalizeHeatmap g)

/-! ## Frame aggregation (`IntegratedPeopleDetector`) -/

/-- One entry of the detection list built by `detect_people`: the track
id, the bbox-centre point, and the zone-name list computed by
`get_person_zone`. -/
structure Detection where
  id : Int
  center : Int × Int
  zones : List ZoneName
deriving DecidableEq

/-- The per-zone mutable statistics of `IntegratedPeopleDetector`:
`zone_visitors` (a `defaultdict(set)`) and `zone_current_count`. -/
structure DetectorStats where
  zone_visitors : List (ZoneName × Finset Int)
  zone_current_count : List (ZoneName × Int)
deriving DecidableEq

/-- The inner loop body of `update_zone_statistics` for one zone name of
one detection: `zone_current_count[z] = zone_current_count.get(z, 0) + 1`
and `zone_visitors[z].add(track_id)`. -/
def tallyZone (tid : Int) (st : DetectorStats) (z : ZoneName) : DetectorStats :=
  { zone_current_count := alUpdate z (· + 1) 0 st.zone_current_count
    zone_visitors := alUpdate z (insert tid) ∅ st.zone_visitors }

/-- The outer loop body: fold one detection's zone list. -/
def tallyDetection (st : DetectorStats) (d : Detection) : DetectorStats :=
  d.zones.foldl (tallyZone d.id) st

/-- `IntegratedPeopleDetector.update_zone_statistics`: clear
`zone_current_count`, then tally every detection. -/
def update_zone_statistics (st : DetectorStats) (dets : List Detection) : DetectorStats :=
  dets.foldl tallyDetection { st with zone_current_count := [] }

/-- The visitor set the detector holds for zone `z` (`defaultdict`: the
empty set when no entry exists). -/
def visitorsOf (st : DetectorStats) (z : ZoneName) : Finset Int :=
  (alLookup z st.zone_visitors).getD ∅

/-- The current count the detector holds for zone `z`
(`zone_current_count.get(z, 0)`). -/
def currentOf (st : DetectorStats) (z : ZoneName) : Int :=
  (alLookup z st.zone_current_count).getD 0

/-- `IntegratedPeopleDetector.update_shared_state`: one `update_counts`
call with `total_count = len(detections)`, the current per-zone counts,
the full visitor sets, and the detection centres. -/
def update_shared_state (s : SharedState) (st : DetectorStats)
    (dets : List Detection) (ts : Nat) : SharedState :=
  update_counts s
    { total_count := dets.length
      zone_counts := st.zone_current_count
      zone_visitors := st.zone_visitors
      coordinates := dets.map Detection.center
      ts := ts }

/-! ## Point-in-polygon (`cv2.pointPolygonTest`, integer branch) -/

abbrev IPt := Int × Int

/-- The skip condition of one loop iteration of OpenCV's integer
`pointPolygonTest`: the edge lies entirely on or below, entirely above,
or entirely left of the query point. -/
def ppGuard (q v0 v : IPt) : Prop :=
  (v0.2 ≤ q.2 ∧ v.2 ≤ q.2) ∨ (q.2 < v0.2 ∧ q.2 < v.2) ∨ (v0.1 < q.1 ∧ v.1 < q.1)

instance (q v0 v : IPt) : Decidable (ppGuard q v0 v) := by
  unfold ppGuard
  infer_instance

/-- The on-horizontal-edge / on-vertex check inside the skip branch. -/
def ppOnFlat (q v0 v : IPt) : Prop :=
  q.2 = v.2 ∧ (q.1 = v.1 ∨ (q.2 = v0.2 ∧
    ((v0.1 ≤ q.1 ∧ q.1 ≤ v.1) ∨ (v.1 ≤ q.1 ∧ q.1 ≤ v0.1))))

instance (q v0 v : IPt) : Decidable (ppOnFlat q v0 v) := by
  unfold ppOnFlat
  infer_instance

/-- The `dist` cross product of one iteration:
`(ip.y - v0.y)*(v.x - v0.x) - (ip.x - v0.x)*(v.y - v0.y)`. -/
def ppCross (q v0 v : IPt) : Int :=
  (q.2 - v0.2) * (v.1 - v0.1) - (q.1 - v0.1) * (v.2 - v0.2)

/-- The loop of OpenCV's integer `pointPolygonTest`: returns `0` as soon
as the point is found on an edge, otherwise counts upward edge crossings
and decides by parity. -/
def pptAux (q : IPt) : List (IPt × IPt) → Nat → Int
  | [], counter => if counter % 2 = 0 then -1 else 1
  | (v0, v) :: rest, counter =>
    if ppGuard q v0 v then
      if ppOnFlat q v0 v then 0 else pptAux q rest counter
    else
      let dist := ppCross q v0 v
      if dist = 0 then 0
      else
        let dist2 := if v.2 < v0.2 then -dist else dist
        pptAux q rest (counter + if 0 < dist2 then 1 else 0)

/-- The edge list OpenCV iterates over: `v` starts at the last vertex,
so the edges are `(p_last, p_0), (p_0, p_1), …, (p_{n-2}, p_{n-1})`. -/
def polyEdges : List IPt → List (IPt × IPt)
  | [] => []
  | p :: ps => (((p :: ps).getLastD p) :: p :: ps).zip (p :: ps)

/-- `cv2.pointPolygonTest(np.array(pts, dtype=np.int32), q, False)` for
an integer query point: `1` inside, `-1` outside, `0` on the contour. -/
def pointPolygonTest (pts : List IPt) (q : IPt) : Int :=
  pptAux q (polyEdges pts) 0

/-- `IntegratedPeopleDetector.point_in_zone`:
`cv2.pointPolygonTest(…) >= 0`. -/
def point_in_zone (q : IPt) (pts : List IPt) : Bool :=
  decide (0 ≤ pointPolygonTest pts q)

/-- One entry of the zones configuration consulted by
`get_person_zone` (`zone['name']`, `zone['points']`,
`zone.get('enabled', True)`). -/
structure Zone where
  name : ZoneName
  points : List IPt
  enabled : Bool
deriving Repr, DecidableEq

/-- `IntegratedPeopleDetector.get_person_zone`: the names of the enabled
zones whose polygon contains the centre, in configuration order. -/
def get_person_zone (zones : List Zone) (q : IPt) : List ZoneName :=
  (zones.filter fun z => z.enabled && point_in_zone q z.points).map Zone.name

/-- Membership of `q` in the closed segment from `a` to `b` over ℤ:
collinear and inside the bounding box. -/
def onSeg (q a b : IPt) : Prop :=
  ppCross q a b = 0 ∧
    min a.1 b.1 ≤ q.1 ∧ q.1 ≤ max a.1 b.1 ∧
    min a.2 b.2 ≤ q.2 ∧ q.2 ≤ max a.2 b.2

instance (q a b : IPt) : Decidable (onSeg q a b) := by
  unfold onSeg
  infer_instance

/-- `q` lies exactly on the polygon's contour: on some edge (vertices
included, since they are segment endpoints). -/
def OnBoundary (q : IPt) (pts : List IPt) : Prop :=
  ∃ e ∈ polyEdges pts, onSeg q e.1 e.2

instance (q : IPt) (pts : List IPt) : Decidable (OnBoundary q pts) := by
  unfold OnBoundary
  infer_instance

/-! ## Association-list lemmas -/

/-! ## Claim statements under test, and sample states for witnesses -/

/-- The claim C6 as stated: after processing an empty detection list,
every known zone (here: every zone with a visitor record) keeps an
explicit zero entry in the current-count map. -/
def emptyFrameExplicitZeros : Prop :=
  ∀ (st : DetectorStats) (z : ZoneName), z ∈ st.zone_visitors.map Prod.fst →
    alLookup z (update_zone_statistics st []).zone_current_count = some 0

/-- The claim C1 as stated: for every limit (including 0), `get_history`
returns exactly the last `min(limit, updates so far, 3600)` samples. -/
def historyLimitExact : Prop :=
  ∀ (us : List UpdateArgs) (limit : Nat),
    (get_history (applyUpdates initialState us) limit).length =
      min limit (min us.length 3600)

/-- The zone-alert rows `check_alerts` appends while walking
`_zone_counts`. -/
def zoneAlerts (s : SharedState) (l : List (ZoneName × Int)) : List (ZoneName × Alert) :=
  l.filterMap fun p =>
    if zoneAlertCond s p.1 p.2 then
      some (p.1, ⟨"zone", (alLookup p.1 s.zone_thresholds).getD 0, p.2, true⟩)
    else none

/-- A state in which zone `A` has current count 1 and a configured
per-zone threshold of 0 (falsy in Python), and the global threshold is
not exceeded. -/
def zeroThresholdState : SharedState :=
  { total_count := 1
    zone_counts := [("A", 1)]
    zone_visitors := []
    person_coordinates := []
    history := []
    global_threshold := 50
    zone_thresholds := [("A", 0)]
    last_update := none
    detection_running := false }

/-- The claim C3 as stated: a zone alert key is present iff a per-zone
threshold *exists* and the current count strictly exceeds it. -/
def alertsIffExceeds : Prop :=
  ∀ s : SharedState,
    ("global" ∈ (check_alerts s).map Prod.fst ↔ s.global_threshold < s.total_count) ∧
    ∀ z c, (z, c) ∈ s.zone_counts →
      (z ∈ (check_alerts s).map Prod.fst ↔
        ∃ t, alLookup z s.zone_thresholds = some t ∧ t < c)

/-- A state with `total_count = 51` against a global threshold of 50 and
zone `A` at current 5 against threshold 3. -/
def alertState : SharedState :=
  { total_count := 51
    zone_counts := [("A", 5)]
    zone_visitors := []
    person_coordinates := []
    history := []
    global_threshold := 50
    zone_thresholds := [("A", 3)]
    last_update := none
    detection_running := false }

/-- The claim C7 as stated: a zone polygon with fewer than 3 points is
never-containing — the membership test returns false for every query
point. -/
def degenerateNeverContains : Prop :=
  ∀ (pts : List IPt) (q : IPt), pts.length < 3 → point_in_zone q pts = false

theorem alLookup_alUpdate {α : Type} (k z : ZoneName) (f : α → α) (d : α)
    (l : List (ZoneName × α)) :
    alLookup z (alUpdate k f d l) =
      if k = z then some (f ((alLookup k l).getD d)) else alLookup z l := by
  induction l with
  | nil =>
    by_cases hz : k = z <;> simp [alLookup, alUpdate, hz]
  | cons p rest ih =>
    obtain ⟨k1, v⟩ := p
    by_cases hk : k1 = k
    · subst hk
      by_cases hz : k1 = z <;> simp [alLookup, alUpdate, hz]
    · by_cases hz : k1 = z
      · subst hz
        have hkz : ¬ k = k1 := fun h => hk h.symm
        simp [alLookup, alUpdate, hk, hkz]
      · simp [alLookup, alUpdate, hk, hz, ih]

theorem alLookup_eq_none_iff {α : Type} (z : ZoneName) (l : List (ZoneName × α)) :
    alLookup z l = none ↔ z ∉ l.map Prod.fst := by
  induction l with
  | nil => simp [alLookup]
  | cons p rest ih =>
    obtain ⟨k1, v⟩ := p
    by_cases hz : k1 = z
    · subst hz
      simp [alLookup]
    · simp only [alLookup, if_neg hz, List.map_cons, List.mem_cons, ih]
      constructor
      · rintro h (h1 | h2)
        · exact hz h1.symm
        · exact h h2
      · intro h hm
        exact h (Or.inr hm)

theorem alLookup_of_mem_nodupKeys {α : Type} (z : ZoneName) (c : α)
    (l : List (ZoneName × α)) (hnd : (l.map Prod.fst).Nodup) (hm : (z, c) ∈ l) :
    alLookup z l = some c := by
  induction l with
  | nil => simp at hm
  | cons p rest ih =>
    obtain ⟨k1, v⟩ := p
    simp only [List.map_cons, List.nodup_cons] at hnd
    rcases List.mem_cons.mp hm with h | h
    · obtain ⟨h1, h2⟩ := Prod.mk.injEq .. ▸ h
      simp [alLookup, h1.symm, h2]
    · have hne : k1 ≠ z := by
        intro he
        exact hnd.1 (he ▸ (List.mem_map.mpr ⟨(z, c), h, rfl⟩))
      simp [alLookup, hne, ih hnd.2 h]

theorem alInsert_of_not_mem {α : Type} (k : ZoneName) (v : α)
    (l : List (ZoneName × α)) (h : k ∉ l.map Prod.fst) :
    alInsert k v l = l ++ [(k, v)] := by
  induction l with
  | nil => simp [alInsert]
  | cons p rest ih =>
    obtain ⟨k1, w⟩ := p
    simp only [List.map_cons, List.mem_cons] at h
    push_neg at h
    have hne : k1 ≠ k := fun he => h.1 he.symm
    simp [alInsert, hne, ih h.2]

theorem alLookup_append {α : Type} (z : ZoneName) (l m : List (ZoneName × α)) :
    alLookup z (l ++ m) =
      match alLookup z l with
      | some v => some v
      | none => alLookup z m := by
  induction l with
  | nil => simp [alLookup]
  | cons p rest ih =>
    obtain ⟨k1, v⟩ := p
    by_cases hz : k1 = z <;> simp [alLookup, hz, ih]

/-! ## Detector aggregation lemmas -/

theorem visitorsOf_tallyZone (tid : Int) (st : DetectorStats) (z w : ZoneName) :
    visitorsOf (tallyZone tid st w) z =
      if w = z then insert tid (visitorsOf st z) else visitorsOf st z := by
  unfold visitorsOf tallyZone
  rw [alLookup_alUpdate]
  by_cases hw : w = z <;> simp [hw]

theorem currentOf_tallyZone (tid : Int) (st : DetectorStats) (z w : ZoneName) :
    currentOf (tallyZone tid st w) z =
      currentOf st z + if w = z then 1 else 0 := by
  unfold currentOf tallyZone
  rw [alLookup_alUpdate]
  by_cases hw : w = z <;> simp [hw]

theorem visitorsOf_subset_tallyZone (tid : Int) (st : DetectorStats) (z w : ZoneName) :
    visitorsOf st z ⊆ visitorsOf (tallyZone tid st w) z := by
  rw [visitorsOf_tallyZone]
  by_cases hw : w = z <;> simp [hw, Finset.subset_insert]

theorem visitorsOf_subset_foldZones (tid : Int) (zs : List ZoneName)
    (st : DetectorStats) (z : ZoneName) :
    visitorsOf st z ⊆ visitorsOf (zs.foldl (tallyZone tid) st) z := by
  induction zs generalizing st with
  | nil => exact fun a ha => ha
  | cons w ws ih =>
    exact fun a ha => ih (tallyZone tid st w) (visitorsOf_subset_tallyZone tid st z w ha)

theorem visitorsOf_subset_tallyDetection (st : DetectorStats) (d : Detection) (z : ZoneName) :
    visitorsOf st z ⊆ visitorsOf (tallyDetection st d) z :=
  visitorsOf_subset_foldZones d.id d.zones st z

theorem visitorsOf_subset_update (st : DetectorStats) (dets : List Detection) (z : ZoneName) :
    visitorsOf st z ⊆ visitorsOf (update_zone_statistics st dets) z := by
  unfold update_zone_statistics
  have h0 : visitorsOf { st with zone_current_count := [] } z = visitorsOf st z := rfl
  rw [← h0]
  generalize { st with zone_current_count := [] } = st1
  induction dets generalizing st1 with
  | nil => exact fun a ha => ha
  | cons d ds ih =>
    exact fun a ha => ih (tallyDetection st1 d) (visitorsOf_subset_tallyDetection st1 d z ha)

theorem currentOf_foldZones (tid : Int) (zs : List ZoneName)
    (st : DetectorStats) (z : ZoneName) :
    currentOf (zs.foldl (tallyZone tid) st) z = currentOf st z + zs.count z := by
  induction zs generalizing st with
  | nil => simp
  | cons w ws ih =>
    rw [List.foldl_cons, ih, currentOf_tallyZone, List.count_cons]
    by_cases hw : w = z
    · simp [hw]
      ring
    · have hbw : ¬ (w == z) := by simpa using hw
      simp [hw, hbw]

theorem currentOf_tallyDetection (st : DetectorStats) (d : Detection) (z : ZoneName) :
    currentOf (tallyDetection st d) z = currentOf st z + d.zones.count z :=
  currentOf_foldZones d.id d.zones st z

theorem currentOf_update (st : DetectorStats) (dets : List Detection) (z : ZoneName) :
    currentOf (update_zone_statistics st dets) z =
      ((dets.map fun d => (d.zones.count z : Int)).sum) := by
  unfold update_zone_statistics
  have h0 : currentOf { st with zone_current_count := [] } z = 0 := rfl
  calc currentOf (dets.foldl tallyDetection { st with zone_current_count := [] }) z
      = currentOf { st with zone_current_count := [] } z
          + ((dets.map fun d => (d.zones.count z : Int)).sum) := by
        generalize { st with zone_current_count := [] } = st1
        induction dets generalizing st1 with
        | nil => simp
        | cons d ds ih =>
          rw [List.foldl_cons, ih, currentOf_tallyDetection]
          simp
          ring
    _ = (dets.map fun d => (d.zones.count z : Int)).sum := by rw [h0, zero_add]

/-! ## Claim C2: visitor sets only grow, current counts are rebuilt -/

/-- C2. For a fixed zone, across any sequence of `update_zone_statistics`
frames the cumulative visitor set only grows (an identity once inserted
is never removed), hence its size is monotonically non-decreasing, while
the current count is recomputed each frame and drops to zero on a frame
with no detections. -/
theorem visitor_sets_monotone (st : DetectorStats)
    (frames : List (List Detection)) (z : ZoneName) :
    visitorsOf st z ⊆ visitorsOf (frames.foldl update_zone_statistics st) z ∧
    (visitorsOf st z).card ≤ (visitorsOf (frames.foldl update_zone_statistics st) z).card ∧
    currentOf (update_zone_statistics st []) z = 0 := by
  have hsub : visitorsOf st z ⊆ visitorsOf (frames.foldl update_zone_statistics st) z := by
    induction frames generalizing st with
    | nil => exact fun a ha => ha
    | cons f fs ih =>
      exact fun a ha =>
        ih (update_zone_statistics st f) (visitorsOf_subset_update st f z ha)
  refine ⟨hsub, Finset.card_le_card hsub, ?_⟩
  rw [currentOf_update]
  simp

/-! ## Claim C4: overlapping zones are counted independently -/

/-- C4. Each detection contributes one increment to the current count of
every zone name in its zone list (no cross-zone deduplication, so a
detection inside two overlapping enabled zones raises both counts to 1),
while the emitted `total_count` is the length of the detection list and
is unaffected by overlap. -/
theorem overlap_counts_independent :
    (∀ (st : DetectorStats) (dets : List Detection) (z : ZoneName),
      currentOf (update_zone_statistics st dets) z =
        ((dets.map fun d => (d.zones.count z : Int)).sum)) ∧
    (∀ (s : SharedState) (st : DetectorStats) (dets : List Detection) (ts : Nat),
      (update_shared_state s st dets ts).total_count = dets.length) ∧
    (∀ (cfg : List Zone) (st : DetectorStats) (tid : Int) (c : IPt) (za zb : Zone),
      za ∈ cfg → zb ∈ cfg → za.name ≠ zb.name → (cfg.map Zone.name).Nodup →
      za.enabled = true → zb.enabled = true →
      point_in_zone c za.points = true → point_in_zone c zb.points = true →
      currentOf (update_zone_statistics st [⟨tid, c, get_person_zone cfg c⟩]) za.name = 1 ∧
      currentOf (update_zone_statistics st [⟨tid, c, get_person_zone cfg c⟩]) zb.name = 1) := by
  refine ⟨fun st dets z => currentOf_update st dets z, fun s st dets ts => rfl, ?_⟩
  intro cfg st tid c za zb ha hb hne hnd hea heb hpa hpb
  have hcount : ∀ z : Zone, z ∈ cfg → z.enabled = true → point_in_zone c z.points = true →
      (get_person_zone cfg c).count z.name = 1 := by
    intro z hz hze hzp
    unfold get_person_zone
    have hmem : z ∈ cfg.filter fun w => w.enabled && point_in_zone c w.points := by
      rw [List.mem_filter]
      exact ⟨hz, by rw [hze, hzp]; rfl⟩
    have hnd2 : ((cfg.filter fun w => w.enabled && point_in_zone c w.points).map Zone.name).Nodup :=
      List.Nodup.sublist (List.Sublist.map Zone.name (List.filter_sublist cfg)) hnd
    exact List.count_eq_one_of_mem hnd2 (List.mem_map.mpr ⟨z, hmem, rfl⟩)
  constructor
  · rw [currentOf_update]
    simp [hcount za ha hea hpa]
  · rw [currentOf_update]
    simp [hcount zb hb heb hpb]

/-- Witness for C4's conditional part: one detection at `(1, 1)` inside
the two overlapping enabled squares `A` and `B` yields current count 1
for each. -/
theorem overlap_counts_independent_witness :
    currentOf (update_zone_statistics ⟨[], []⟩
      [⟨9, (1, 1), get_person_zone
        [⟨"A", [(0, 0), (4, 0), (4, 4), (0, 4)], true⟩,
         ⟨"B", [(0, 0), (3, 0), (3, 3), (0, 3)], true⟩] (1, 1)⟩]) "A" = 1 ∧
    currentOf (update_zone_statistics ⟨[], []⟩
      [⟨9, (1, 1), get_person_zone
        [⟨"A", [(0, 0), (4, 0), (4, 4), (0, 4)], true⟩,
         ⟨"B", [(0, 0), (3, 0), (3, 3), (0, 3)], true⟩] (1, 1)⟩]) "B" = 1 :=
  overlap_counts_independent.2.2
    [⟨"A", [(0, 0), (4, 0), (4, 4), (0, 4)], true⟩,
     ⟨"B", [(0, 0), (3, 0), (3, 3), (0, 3)], true⟩]
    ⟨[], []⟩ 9 (1, 1)
    ⟨"A", [(0, 0), (4, 0), (4, 4), (0, 4)], true⟩
    ⟨"B", [(0, 0), (3, 0), (3, 3), (0, 3)], true⟩
    (by decide) (by decide) (by decide) (by decide)
    (by decide) (by decide) (by decide) (by decide)

/-! ## Claim C6: an empty frame clears the current counter -/

/-- Counterexample for C6: `update_zone_statistics` starts with
`zone_current_count.clear()`, so after an empty frame the map is empty —
zone `A`, although known (it has visitors), has no entry at all, not an
explicit zero one. -/
theorem empty_frame_zero_entries_cex : ¬ emptyFrameExplicitZeros := by
  intro h
  have := h ⟨[("A", {1})], [("A", 2)]⟩ "A" (by simp)
  simp [update_zone_statistics, alLookup] at this

/-- C6 amended: an empty detection list leaves `zone_current_count` as
the empty map (every zone reads as zero through the `defaultdict`
access, but no explicit entries exist) and leaves every visitor set
unchanged. -/
theorem empty_frame_clears_current (st : DetectorStats) :
    (update_zone_statistics st []).zone_current_count = [] ∧
    (update_zone_statistics st []).zone_visitors = st.zone_visitors ∧
    ∀ z, currentOf (update_zone_statistics st []) z = 0 := by
  refine ⟨rfl, rfl, fun z => ?_⟩
  rw [currentOf_update]
  simp

/-! ## Claim C10: get_zone_counts reports exactly the latest map's keys -/

/-- C10. After an `update_counts` call, `get_zone_counts` has exactly
the keys of the zone-counts map passed to that call, in order; any zone
absent from that map — even one whose stored visitor set is non-empty —
is omitted entirely, so its visitor total is not reported. -/
theorem zone_counts_keys_latest (s : SharedState) (u : UpdateArgs) :
    (get_zone_counts (update_counts s u)).map Prod.fst = u.zone_counts.map Prod.fst ∧
    ∀ z, z ∉ u.zone_counts.map Prod.fst →
      alLookup z (get_zone_counts (update_counts s u)) = none := by
  have hkeys : (get_zone_counts (update_counts s u)).map Prod.fst
      = u.zone_counts.map Prod.fst := by
    unfold get_zone_counts update_counts
    rw [List.map_map]
    rfl
  exact ⟨hkeys, fun z hz => (alLookup_eq_none_iff z _).mpr (hkeys ▸ hz)⟩

/-- Witness for C10: the update carries visitors `{5}` for zone `B` but
a zone-counts map with only key `A`; the accessor reports key `A` only
and nothing for `B`. -/
theorem zone_counts_keys_latest_witness :
    (alLookup "B" (sampleUpdate).zone_visitors
        = some {5}) ∧
    (get_zone_counts (update_counts initialState
        sampleUpdate)).map Prod.fst = ["A"] ∧
    alLookup "B" (get_zone_counts (update_counts initialState
        sampleUpdate)) = none :=
  ⟨by decide,
   (zone_counts_keys_latest initialState sampleUpdate).1,
   (zone_counts_keys_latest initialState sampleUpdate).2
     "B" (by decide)⟩

/-! ## Claim C1: the history ring -/

theorem histAppend_eq_rtake (h : List HistoryEntry) (e : HistoryEntry)
    (hl : h.length ≤ 3600) :
    histAppend h e = (h ++ [e]).rtake 3600 := by
  unfold histAppend List.rtake
  by_cases hlen : 3600 < (h ++ [e]).length
  · rw [if_pos hlen]
  · rw [if_neg hlen, show (h ++ [e]).length - 3600 = 0 by omega, List.drop_zero]

theorem rtake_all {α : Type} (l : List α) (n : Nat) (h : l.length ≤ n) :
    l.rtake n = l := by
  unfold List.rtake
  have : l.length - n = 0 := by omega
  simp [this]

theorem length_rtake {α : Type} (l : List α) (n : Nat) :
    (l.rtake n).length = min n l.length := by
  unfold List.rtake
  rw [List.length_drop]
  omega

theorem rtake_rtake {α : Type} (l : List α) (m n : Nat) :
    (l.rtake m).rtake n = l.rtake (min n m) := by
  rw [List.rtake_eq_reverse_take_reverse, List.rtake_eq_reverse_take_reverse,
    List.rtake_eq_reverse_take_reverse, List.reverse_reverse, List.take_take]

theorem rtake_append_rtake {α : Type} (l m : List α) (n : Nat) :
    (l.rtake n ++ m).rtake n = (l ++ m).rtake n := by
  have e1 := List.rtake_eq_reverse_take_reverse (l.rtake n ++ m) n
  have e2 := List.rtake_eq_reverse_take_reverse (l ++ m) n
  have e0 := List.rtake_eq_reverse_take_reverse l n
  rw [e1, e2]
  congr 1
  rw [List.reverse_append, List.reverse_append, e0, List.reverse_reverse,
    List.take_append_eq_append_take, List.take_append_eq_append_take, List.take_take,
    Nat.min_eq_left (by omega : n - m.reverse.length ≤ n)]

theorem history_applyUpdates (s : SharedState) (us : List UpdateArgs)
    (hs : s.history.length ≤ 3600) :
    (applyUpdates s us).history = (s.history ++ us.map entryOf).rtake 3600 := by
  induction us generalizing s with
  | nil =>
    simpa [applyUpdates] using (rtake_all s.history 3600 hs).symm
  | cons u us ih =>
    have hstep : (update_counts s u).history = (s.history ++ [entryOf u]).rtake 3600 :=
      histAppend_eq_rtake s.history (entryOf u) hs
    have hlen : (update_counts s u).history.length ≤ 3600 := by
      rw [hstep, length_rtake]
      omega
    have : applyUpdates s (u :: us) = applyUpdates (update_counts s u) us := rfl
    rw [this, ih (update_counts s u) hlen, hstep, rtake_append_rtake]
    simp

/-- Counterexample for C1: `list(self._history)[-limit:]` with
`limit = 0` is the slice `[0:]`, i.e. the whole retained history: after
one update, `get_history(0)` returns 1 sample where the claim demands
`min(0, 1, 3600) = 0`. -/
theorem history_limit_zero_cex : ¬ historyLimitExact := by
  intro h
  have := h [sampleUpdate] 0
  simp [applyUpdates, update_counts, get_history, histAppend, initialState] at this

/-- C1 amended: for every `limit ≥ 1`, `get_history` returns exactly the
last `min(limit, updates so far, 3600)` samples in chronological
(insertion) order, with limits above the ring's capacity of 3600
behaving as the capacity; `limit = 0`, however, returns the whole
retained ring (`min(updates, 3600)` samples), not 0 samples. -/
theorem history_ring_last_min (us : List UpdateArgs) (limit : Nat)
    (hpos : 1 ≤ limit) :
    get_history (applyUpdates initialState us) limit
        = (us.map entryOf).rtake (min limit 3600) ∧
    (get_history (applyUpdates initialState us) limit).length
        = min limit (min us.length 3600) ∧
    get_history (applyUpdates initialState us) 0 = (us.map entryOf).rtake 3600 := by
  have hh : (applyUpdates initialState us).history = (us.map entryOf).rtake 3600 := by
    simpa using history_applyUpdates initialState us (by simp [initialState])
  have hlim : limit ≠ 0 := by omega
  have h1 : get_history (applyUpdates initialState us) limit
      = (us.map entryOf).rtake (min limit 3600) := by
    unfold get_history
    rw [if_neg hlim, ← List.rtake, hh, rtake_rtake]
  refine ⟨h1, ?_, by unfold get_history; rw [if_pos rfl, hh]⟩
  rw [h1, length_rtake, List.length_map]
  omega

/-- Witness for C1's amended statement at `limit = 1` after one update. -/
theorem history_ring_last_min_witness :
    get_history (applyUpdates initialState [sampleUpdate]) 1
        = ([sampleUpdate].map entryOf).rtake (min 1 3600) ∧
    (get_history (applyUpdates initialState [sampleUpdate]) 1).length
        = min 1 (min [sampleUpdate].length 3600) ∧
    get_history (applyUpdates initialState [sampleUpdate]) 0
        = ([sampleUpdate].map entryOf).rtake 3600 :=
  history_ring_last_min [sampleUpdate] 1 (by decide)

/-! ## Claim C3: alerts fire exactly on strict threshold excess -/

theorem check_alerts_fold_eq (s : SharedState) (l : List (ZoneName × Int))
    (acc : List (ZoneName × Alert)) (hnd : (l.map Prod.fst).Nodup)
    (hfresh : ∀ p ∈ l, p.1 ∉ acc.map Prod.fst) :
    l.foldl
      (fun acc p =>
        if zoneAlertCond s p.1 p.2 then
          alInsert p.1 ⟨"zone", (alLookup p.1 s.zone_thresholds).getD 0, p.2, true⟩ acc
        else acc) acc
      = acc ++ zoneAlerts s l := by
  induction l generalizing acc with
  | nil => simp [zoneAlerts]
  | cons p rest ih =>
    simp only [List.map_cons, List.nodup_cons] at hnd
    by_cases hc : zoneAlertCond s p.1 p.2
    · rw [List.foldl_cons, if_pos hc,
        alInsert_of_not_mem p.1
          (Alert.mk "zone" ((alLookup p.1 s.zone_thresholds).getD 0) p.2 true)
          acc (hfresh p (List.mem_cons_self p rest))]
      rw [ih _ hnd.2 ?fresh]
      case fresh =>
        intro q hq
        rw [List.map_append, List.mem_append]
        rintro (h1 | h2)
        · exact hfresh q (List.mem_cons_of_mem p hq) h1
        · simp only [List.map_cons, List.map_nil, List.mem_singleton] at h2
          exact hnd.1 (h2 ▸ (List.mem_map.mpr ⟨q, hq, rfl⟩))
      rw [List.append_assoc]
      congr 1
      simp [zoneAlerts, hc]
    · rw [List.foldl_cons, if_neg hc, ih _ hnd.2
        (fun q hq => hfresh q (List.mem_cons_of_mem p hq))]
      congr 1
      simp [zoneAlerts, hc]

theorem check_alerts_eq (s : SharedState) (hnd : (s.zone_counts.map Prod.fst).Nodup)
    (hg : "global" ∉ s.zone_counts.map Prod.fst) :
    check_alerts s =
      (if s.global_threshold < s.total_count then
        [("global", ⟨"global", s.global_threshold, s.total_count, true⟩)]
      else []) ++ zoneAlerts s s.zone_counts := by
  unfold check_alerts
  apply check_alerts_fold_eq s s.zone_counts _ hnd
  intro p hp hmem
  by_cases hgt : s.global_threshold < s.total_count
  · rw [if_pos hgt] at hmem
    simp only [List.map_cons, List.map_nil, List.mem_singleton] at hmem
    exact hg (hmem ▸ (List.mem_map.mpr ⟨p, hp, rfl⟩))
  · rw [if_neg hgt] at hmem
    simp at hmem

theorem mem_keys_zoneAlerts (s : SharedState) (l : List (ZoneName × Int)) (z : ZoneName) :
    z ∈ (zoneAlerts s l).map Prod.fst ↔ ∃ c, (z, c) ∈ l ∧ zoneAlertCond s z c := by
  unfold zoneAlerts
  constructor
  · intro h
    obtain ⟨q, hq, hqz⟩ := List.mem_map.mp h
    obtain ⟨p, hp, hpe⟩ := List.mem_filterMap.mp hq
    by_cases hc : zoneAlertCond s p.1 p.2
    · rw [if_pos hc] at hpe
      have hq2 : (p.1, Alert.mk "zone" ((alLookup p.1 s.zone_thresholds).getD 0) p.2 true)
          = q := Option.some.inj hpe
      subst hqz
      rw [← hq2]
      refine ⟨p.2, ?_, hc⟩
      show (p.1, p.2) ∈ l
      rw [Prod.mk.eta]
      exact hp
    · rw [if_neg hc] at hpe
      exact absurd hpe (by simp)
  · rintro ⟨c, hm, hcz⟩
    apply List.mem_map.mpr
    refine ⟨(z, Alert.mk "zone" ((alLookup z s.zone_thresholds).getD 0) c true), ?_, rfl⟩
    apply List.mem_filterMap.mpr
    exact ⟨(z, c), hm, by rw [if_pos hcz]⟩

/-- Counterexample for C3: in `zeroThresholdState` the threshold for `A`
exists (it is 0) and `current = 1 > 0`, yet `if threshold and current >
threshold` skips the zone because `0` is falsy, so no `A` alert is
emitted. -/
theorem alerts_truthy_threshold_cex : ¬ alertsIffExceeds := by
  intro h
  have h2 := (h zeroThresholdState).2 "A" 1 (by decide)
  have h3 : ∃ t, alLookup "A" zeroThresholdState.zone_thresholds = some t ∧ t < 1 :=
    ⟨0, by decide, by decide⟩
  exact absurd (h2.mpr h3) (by decide)

/-- C3 amended: over states whose zone-counts keys are duplicate-free
and do not use the reserved key `"global"` (every state a real frame
produces), `check_alerts` contains key `"global"` iff
`total_count > global_threshold` (with the full record, `exceeded =
true`), and contains a zone's key iff a *nonzero* per-zone threshold
exists and `current > threshold`; absence of a key means no alert, and
the result is a pure function of the current state (nothing sticky). -/
theorem alerts_strict_threshold (s : SharedState)
    (hnd : (s.zone_counts.map Prod.fst).Nodup)
    (hg : "global" ∉ s.zone_counts.map Prod.fst) :
    ("global" ∈ (check_alerts s).map Prod.fst ↔ s.global_threshold < s.total_count) ∧
    (alLookup "global" (check_alerts s) =
      if s.global_threshold < s.total_count then
        some ⟨"global", s.global_threshold, s.total_count, true⟩
      else none) ∧
    ∀ z c, (z, c) ∈ s.zone_counts →
      (z ∈ (check_alerts s).map Prod.fst ↔
        ∃ t, alLookup z s.zone_thresholds = some t ∧ t ≠ 0 ∧ t < c) := by
  have hzg : "global" ∉ (zoneAlerts s s.zone_counts).map Prod.fst := by
    intro hmem
    obtain ⟨c, hm, _⟩ := (mem_keys_zoneAlerts s s.zone_counts "global").mp hmem
    exact hg (List.mem_map.mpr ⟨("global", c), hm, rfl⟩)
  rw [check_alerts_eq s hnd hg]
  refine ⟨?_, ?_, ?_⟩
  · rw [List.map_append, List.mem_append]
    by_cases hgt : s.global_threshold < s.total_count
    · simp [hgt]
    · simp only [if_neg hgt, List.map_nil, List.not_mem_nil, false_or]
      exact iff_of_false hzg hgt
  · rw [alLookup_append]
    by_cases hgt : s.global_threshold < s.total_count
    · simp [hgt, alLookup]
    · simp only [if_neg hgt, alLookup]
      exact (alLookup_eq_none_iff _ _).mpr hzg
  · intro z c hzc
    have hzne : z ≠ "global" := by
      intro he
      exact hg (he ▸ List.mem_map.mpr ⟨(z, c), hzc, rfl⟩)
    rw [List.map_append, List.mem_append]
    have hza0 : ∀ b : Prop, (z ∈ (if s.global_threshold < s.total_count then
        [("global", Alert.mk "global" s.global_threshold s.total_count true)]
      else ([] : List (ZoneName × Alert))).map Prod.fst) → b := by
      intro b hm
      by_cases hgt : s.global_threshold < s.total_count
      · rw [if_pos hgt] at hm
        simp only [List.map_cons, List.map_nil, List.mem_singleton] at hm
        exact absurd hm hzne
      · rw [if_neg hgt] at hm
        simp at hm
    constructor
    · rintro (hm | hm)
      · exact hza0 _ hm
      · obtain ⟨c2, hm2, hcond⟩ := (mem_keys_zoneAlerts s s.zone_counts z).mp hm
        have : alLookup z s.zone_counts = some c := alLookup_of_mem_nodupKeys z c _ hnd hzc
        have h2 : alLookup z s.zone_counts = some c2 := alLookup_of_mem_nodupKeys z c2 _ hnd hm2
        have : c2 = c := by
          rw [this] at h2
          exact (Option.some.inj h2).symm
        exact this ▸ hcond
    · intro hcond
      exact Or.inr ((mem_keys_zoneAlerts s s.zone_counts z).mpr ⟨c, hzc, hcond⟩)

/-- Witness for C3 amended, at `alertState` and zone `A`. -/
theorem alerts_strict_threshold_witness :
    ("global" ∈ (check_alerts alertState).map Prod.fst ↔
      alertState.global_threshold < alertState.total_count) ∧
    (alLookup "global" (check_alerts alertState) =
      if alertState.global_threshold < alertState.total_count then
        some ⟨"global", alertState.global_threshold, alertState.total_count, true⟩
      else none) ∧
    ("A" ∈ (check_alerts alertState).map Prod.fst ↔
      ∃ t, alLookup "A" alertState.zone_thresholds = some t ∧ t ≠ 0 ∧ t < 5) :=
  ⟨(alerts_strict_threshold alertState (by decide) (by decide)).1,
   (alerts_strict_threshold alertState (by decide) (by decide)).2.1,
   (alerts_strict_threshold alertState (by decide) (by decide)).2.2 "A" 5 (by decide)⟩

/-! ## Claim C8: rendering the density raster is total -/

theorem le_foldl_max (l : List ℚ) (b : ℚ) : b ≤ l.foldl max b := by
  induction l generalizing b with
  | nil => exact le_refl b
  | cons x xs ih => exact le_trans (le_max_left b x) (ih (max b x))

theorem mem_le_foldl_max (l : List ℚ) (b x : ℚ) (h : x ∈ l) : x ≤ l.foldl max b := by
  induction l generalizing b with
  | nil => simp at h
  | cons y ys ih =>
    rcases List.mem_cons.mp h with rfl | hm
    · exact le_trans (le_max_right b x) (le_foldl_max ys (max b x))
    · exact ih (max b y) hm

theorem le_gridMax (g : List (List ℚ)) (row : List ℚ) (v : ℚ)
    (hr : row ∈ g) (hv : v ∈ row) : v ≤ gridMax g := by
  unfold gridMax
  exact le_trans (mem_le_foldl_max row 0 v hv)
    (mem_le_foldl_max _ 0 _ (List.mem_map.mpr ⟨row, hr, rfl⟩))

/-- C8. `get_heatmap_image` is total: with no accumulator it returns the
explicit unavailable result (`None`); with an accumulator whose maximum
is 0 (freshly dimensioned or reset) it returns a well-formed all-zero
raster of the same shape; otherwise it normalizes each cell to
`⌊v / max * 255⌋` (the `[0, 255]` scaling) before the blur/colorize
stages. -/
theorem heatmap_render_total (g : List (List ℚ))
    (hnn : ∀ row ∈ g, ∀ v ∈ row, 0 ≤ v) :
    get_heatmap_image none = none ∧
    (gridMax g = 0 →
      get_heatmap_image (some g) = some (g.map fun row => row.map fun _ => 0)) ∧
    (0 < gridMax g →
      get_heatmap_image (some g) =
        some (g.map fun row => row.map fun v => (⌊v / gridMax g * 255⌋).toNat)) := by
  have hred : get_heatmap_image (some g) = some (normalizeHeatmap g) := rfl
  refine ⟨rfl, ?_, ?_⟩
  · intro hmax
    rw [hred]
    unfold normalizeHeatmap
    rw [if_neg (by rw [hmax]; exact lt_irrefl 0)]
    congr 1
    apply List.map_congr_left
    intro row hr
    apply List.map_congr_left
    intro v hv
    have h1 : v ≤ 0 := hmax ▸ le_gridMax g row v hr hv
    have h2 : v = 0 := le_antisymm h1 (hnn row hr v hv)
    rw [h2]
    simp
  · intro hmax
    rw [hred]
    unfold normalizeHeatmap
    rw [if_pos hmax]

/-- Witness for C8 on the 1×2 grid `[[0, 2]]`: positive maximum, cells
scale to `⌊v/2*255⌋`. -/
theorem heatmap_render_total_witness :
    get_heatmap_image none = none ∧
    (0 : ℚ) < gridMax [[0, 2]] ∧
    get_heatmap_image (some [[(0 : ℚ), 2]]) =
      some ([[(0 : ℚ), 2]].map fun row => row.map fun v =>
        (⌊v / gridMax [[(0 : ℚ), 2]] * 255⌋).toNat) :=
  ⟨rfl, by norm_num [gridMax],
   (heatmap_render_total [[(0 : ℚ), 2]]
      (by
        intro row hr v hv
        simp only [List.mem_singleton] at hr
        subst hr
        rcases List.mem_cons.mp hv with rfl | hv2
        · norm_num
        · simp only [List.mem_singleton] at hv2
          subst hv2
          norm_num)).2.2
     (by norm_num [gridMax])⟩

/-! ## Geometry lemmas for the OpenCV point-in-polygon model -/

theorem onSeg_snd (a b : IPt) : onSeg b a b := by
  refine ⟨by unfold ppCross; ring, ?_, ?_, ?_, ?_⟩
  · exact min_le_right a.1 b.1
  · exact le_max_right a.1 b.1
  · exact min_le_right a.2 b.2
  · exact le_max_right a.2 b.2

theorem ppOnFlat_onSeg (q v0 v : IPt) (h : ppOnFlat q v0 v) : onSeg q v0 v := by
  obtain ⟨h2, h1 | ⟨h0, hx⟩⟩ := h
  · have hq : q = v := Prod.ext h1 h2
    rw [hq]
    exact onSeg_snd v0 v
  · refine ⟨?_, by omega, by omega, by omega, by omega⟩
    have e1 : q.2 - v0.2 = 0 := by omega
    have e2 : v.2 - v0.2 = 0 := by omega
    unfold ppCross
    rw [e1, e2]
    ring

theorem ppGuard_symm (q v0 v : IPt) : ppGuard q v0 v ↔ ppGuard q v v0 := by
  unfold ppGuard
  tauto

theorem ppCross_swap (q v0 v : IPt) : ppCross q v0 v = - ppCross q v v0 := by
  unfold ppCross
  ring

theorem noGuard_cross_zero_onSeg (q v0 v : IPt)
    (hg : ¬ ppGuard q v0 v) (hd : ppCross q v0 v = 0) : onSeg q v0 v := by
  unfold ppGuard at hg
  push_neg at hg
  obtain ⟨hg1, hg2, hg3⟩ := hg
  have hy1 : min v0.2 v.2 ≤ q.2 := by
    by_cases h : v0.2 ≤ q.2
    · omega
    · have := hg2 (by omega)
      omega
  have hy2 : q.2 < max v0.2 v.2 := by
    by_cases h : v0.2 ≤ q.2
    · have := hg1 h
      omega
    · omega
  have hd2 : (q.2 - v0.2) * (v.1 - v0.1) - (q.1 - v0.1) * (v.2 - v0.2) = 0 := hd
  have hI : (q.2 - v0.2) * (v.1 - q.1) = (v.2 - q.2) * (q.1 - v0.1) := by
    linear_combination hd2
  have hx : ¬ (q.1 < v0.1 ∧ q.1 < v.1) ∧ ¬ (v0.1 < q.1 ∧ v.1 < q.1) := by
    rcases lt_or_le v0.2 v.2 with hyy | hyy
    · have hA : 0 ≤ q.2 - v0.2 := by omega
      have hB : 0 < v.2 - q.2 := by omega
      constructor
      · rintro ⟨ha, hb⟩
        nlinarith [mul_nonneg hA (by omega : (0:Int) ≤ v.1 - q.1),
          mul_pos hB (by omega : (0:Int) < v0.1 - q.1)]
      · rintro ⟨ha, hb⟩
        nlinarith [mul_nonneg hA (by omega : (0:Int) ≤ q.1 - v.1),
          mul_pos hB (by omega : (0:Int) < q.1 - v0.1)]
    · have hA : 0 < v0.2 - q.2 := by omega
      have hB : 0 ≤ q.2 - v.2 := by omega
      constructor
      · rintro ⟨ha, hb⟩
        nlinarith [mul_pos hA (by omega : (0:Int) < v0.1 - q.1),
          mul_nonneg hB (by omega : (0:Int) ≤ v.1 - q.1)]
      · rintro ⟨ha, hb⟩
        nlinarith [mul_pos hA (by omega : (0:Int) < q.1 - v0.1),
          mul_nonneg hB (by omega : (0:Int) ≤ q.1 - v.1)]
  exact ⟨hd, by omega, by omega, by omega, by omega⟩

/-- One loop iteration returns 0 whenever the query point lies on the
iteration's edge, provided the point is the edge's second endpoint or
is not its first (the first endpoint is certified by the previous
iteration instead). -/
theorem pptAux_cons_zero_of_cert (q v0 v : IPt) (rest : List (IPt × IPt)) (c : Nat)
    (hseg : onSeg q v0 v) (hc : q = v ∨ q ≠ v0) :
    pptAux q ((v0, v) :: rest) c = 0 := by
  by_cases hqv : q = v
  · by_cases hg : ppGuard q v0 v
    · have hf : ppOnFlat q v0 v := ⟨by rw [hqv], Or.inl (by rw [hqv])⟩
      simp [pptAux, hg, hf]
    · have hd : ppCross q v0 v = 0 := by
        rw [hqv]
        unfold ppCross
        ring
      simp [pptAux, hg, hd]
  · have hqv0 : q ≠ v0 := by
      rcases hc with h | h
      · exact absurd h hqv
      · exact h
    obtain ⟨hcross, hx1, hx2, hy1, hy2⟩ := hseg
    by_cases hvv : v0.2 = v.2
    · have hq2 : q.2 = v.2 := by omega
      have hg : ppGuard q v0 v := Or.inl ⟨by omega, by omega⟩
      have hf : ppOnFlat q v0 v := by
        refine ⟨hq2, Or.inr ⟨by omega, ?_⟩⟩
        rcases le_total v0.1 v.1 with h | h
        · exact Or.inl ⟨by omega, by omega⟩
        · exact Or.inr ⟨by omega, by omega⟩
      simp [pptAux, hg, hf]
    · have hcross2 : (q.2 - v0.2) * (v.1 - v0.1) - (q.1 - v0.1) * (v.2 - v0.2) = 0 := hcross
      have hg : ¬ ppGuard q v0 v := by
        rintro (⟨h1, h2⟩ | ⟨h1, h2⟩ | ⟨h1, h2⟩)
        · rcases lt_or_gt_of_ne hvv with hlt | hgt
          · have hq2 : q.2 = v.2 := by omega
            have h5 : (v.2 - v0.2) * (v.1 - q.1) = 0 := by
              rw [hq2] at hcross2
              linear_combination hcross2
            have h6 : v.1 - q.1 = 0 := by
              rcases mul_eq_zero.mp h5 with h | h
              · omega
              · omega
            exact hqv (Prod.ext (by omega) hq2)
          · have hq2 : q.2 = v0.2 := by omega
            have h5 : (v.2 - v0.2) * (q.1 - v0.1) = 0 := by
              rw [hq2] at hcross2
              linear_combination -hcross2
            have h6 : q.1 - v0.1 = 0 := by
              rcases mul_eq_zero.mp h5 with h | h
              · omega
              · omega
            exact hqv0 (Prod.ext (by omega) hq2)
        · omega
        · omega
      simp [pptAux, hg, hcross]

/-- The loop returns 0 as soon as any edge certifies the point,
whatever the other iterations contribute to the crossing counter. -/
theorem pptAux_zero_of_cert (q : IPt) (edges : List (IPt × IPt)) (c : Nat)
    (h : ∃ e ∈ edges, onSeg q e.1 e.2 ∧ (q = e.2 ∨ q ≠ e.1)) :
    pptAux q edges c = 0 := by
  induction edges generalizing c with
  | nil => simp at h
  | cons e rest ih =>
    obtain ⟨e2, he2, hseg, hcert⟩ := h
    obtain ⟨v0, v⟩ := e
    rcases List.mem_cons.mp he2 with rfl | htail
    · exact pptAux_cons_zero_of_cert q v0 v rest c hseg hcert
    · by_cases hg : ppGuard q v0 v
      · by_cases hf : ppOnFlat q v0 v
        · simp [pptAux, hg, hf]
        · simp only [pptAux, if_pos hg, if_neg hf]
          exact ih c ⟨e2, htail, hseg, hcert⟩
      · by_cases hd : ppCross q v0 v = 0
        · simp [pptAux, hg, hd]
        · simp only [pptAux, if_neg hg, if_neg hd]
          exact ih _ ⟨e2, htail, hseg, hcert⟩

theorem map_snd_polyEdges (p : IPt) (ps : List IPt) :
    (polyEdges (p :: ps)).map Prod.snd = p :: ps := by
  unfold polyEdges
  apply List.map_snd_zip
  simp

/-- Every boundary point admits a certifying edge: either its own edge
(when it is not merely the edge's first endpoint) or the edge that ends
at it. -/
theorem exists_cert_of_onBoundary (q : IPt) (pts : List IPt) (h : OnBoundary q pts) :
    ∃ e ∈ polyEdges pts, onSeg q e.1 e.2 ∧ (q = e.2 ∨ q ≠ e.1) := by
  obtain ⟨e, he, hseg⟩ := h
  by_cases hc : q = e.2 ∨ q ≠ e.1
  · exact ⟨e, he, hseg, hc⟩
  · push_neg at hc
    obtain ⟨hc2, hc1⟩ := hc
    cases pts with
    | nil => simp [polyEdges] at he
    | cons p ps =>
      obtain ⟨ea, eb⟩ := e
      have he3 : (ea, eb) ∈ (((p :: ps).getLastD p) :: p :: ps).zip (p :: ps) := he
      have hq1 : (ea, eb).1 ∈ ((p :: ps).getLastD p) :: p :: ps :=
        (List.of_mem_zip he3).1
      have hqmem : q ∈ p :: ps := by
        rw [hc1]
        rcases List.mem_cons.mp hq1 with hlast | hm
        · rw [hlast]
          have hne : p :: ps ≠ [] := by simp
          rw [List.getLastD_eq_getLast? , List.getLast?_eq_getLast _ hne]
          exact List.getLast_mem hne
        · exact hm
      have : q ∈ (polyEdges (p :: ps)).map Prod.snd := by
        rw [map_snd_polyEdges]
        exact hqmem
      obtain ⟨e2, he2, he2q⟩ := List.mem_map.mp this
      refine ⟨e2, he2, ?_, Or.inl he2q.symm⟩
      rw [← he2q]
      exact onSeg_snd e2.1 e2.2

/-! ## Claim C5: zone membership is boundary-inclusive -/

/-- C5. For a valid polygon (≥ 3 vertices), a point lying exactly on an
edge or vertex of the contour tests as inside (`pointPolygonTest`
returns 0 and `point_in_zone` accepts `>= 0`), so a detection centred on
the boundary of an enabled zone is listed by `get_person_zone` and
counted in that zone. -/
theorem boundary_point_counted (pts : List IPt) (q : IPt)
    (h3 : 3 ≤ pts.length) (hb : OnBoundary q pts) :
    point_in_zone q pts = true ∧
    ∀ (cfg : List Zone) (z : Zone), z ∈ cfg → z.enabled = true → z.points = pts →
      z.name ∈ get_person_zone cfg q := by
  have hz : pointPolygonTest pts q = 0 :=
    pptAux_zero_of_cert q (polyEdges pts) 0 (exists_cert_of_onBoundary q pts hb)
  have hin : point_in_zone q pts = true := by
    unfold point_in_zone
    rw [hz]
    decide
  refine ⟨hin, fun cfg z hzc hze hzp => ?_⟩
  unfold get_person_zone
  apply List.mem_map.mpr
  refine ⟨z, ?_, rfl⟩
  rw [List.mem_filter]
  exact ⟨hzc, by rw [hze, hzp, hin]; rfl⟩

/-- Witness for C5: the point `(2, 0)` on the bottom edge of the
triangle `(0,0)-(4,0)-(0,4)`, configured as enabled zone `A`. -/
theorem boundary_point_counted_witness :
    3 ≤ ([((0:Int), (0:Int)), (4, 0), (0, 4)] : List IPt).length ∧
    OnBoundary (2, 0) [((0:Int), (0:Int)), (4, 0), (0, 4)] ∧
    point_in_zone (2, 0) [((0:Int), (0:Int)), (4, 0), (0, 4)] = true ∧
    "A" ∈ get_person_zone [⟨"A", [((0:Int), (0:Int)), (4, 0), (0, 4)], true⟩] (2, 0) :=
  ⟨by decide, by decide,
   (boundary_point_counted [((0:Int), (0:Int)), (4, 0), (0, 4)] (2, 0)
      (by decide) (by decide)).1,
   (boundary_point_counted [((0:Int), (0:Int)), (4, 0), (0, 4)] (2, 0)
      (by decide) (by decide)).2
     [⟨"A", [((0:Int), (0:Int)), (4, 0), (0, 4)], true⟩]
     ⟨"A", [((0:Int), (0:Int)), (4, 0), (0, 4)], true⟩
     (by decide) (by decide) (by decide)⟩

/-! ## Claim C7: polygons with fewer than 3 points -/

/-- Counterexample for C7: `cv2.pointPolygonTest` returns 0 (accepted by
`>= 0`) for a point on the segment of a 2-point "polygon", so
`point_in_zone((5,0), [(0,0),(10,0)])` is true, not false. -/
theorem degenerate_polygon_cex : ¬ degenerateNeverContains := by
  intro h
  have := h [((0:Int), (0:Int)), (10, 0)] (5, 0) (by decide)
  exact absurd this (by decide)

/-- C7 amended: for a degenerate polygon of 1 or 2 points the test is
still total (the embedded algorithm runs the same integer loop), and it
is never-containing for every point *off* the degenerate contour; only
points exactly on the 1-point contour or on the 2-point segment are
reported inside. -/
theorem degenerate_polygon_noncontaining (pts : List IPt) (q : IPt)
    (hlen : pts.length = 1 ∨ pts.length = 2) (hb : ¬ OnBoundary q pts) :
    point_in_zone q pts = false := by
  rcases hlen with h1 | h2
  · obtain ⟨p, rfl⟩ := List.length_eq_one.mp h1
    have hedges : polyEdges [p] = [(p, p)] := rfl
    have hbs : ¬ onSeg q p p := by
      intro hs
      exact hb ⟨(p, p), by rw [hedges]; exact List.mem_singleton_self _, hs⟩
    have hg : ppGuard q p p := by
      unfold ppGuard
      omega
    have hf : ¬ ppOnFlat q p p := fun h => hbs (ppOnFlat_onSeg q p p h)
    unfold point_in_zone pointPolygonTest
    rw [hedges]
    simp [pptAux, hg, hf]
  · obtain ⟨a, b, rfl⟩ := List.length_eq_two.mp h2
    have hedges : polyEdges [a, b] = [(b, a), (a, b)] := rfl
    have hs1 : ¬ onSeg q b a := by
      intro hs
      exact hb ⟨(b, a), by rw [hedges]; exact List.mem_cons_self _ _, hs⟩
    have hs2 : ¬ onSeg q a b := by
      intro hs
      refine hb ⟨(a, b), by rw [hedges]; exact List.mem_cons_of_mem _ (List.mem_singleton_self _), hs⟩
    unfold point_in_zone pointPolygonTest
    rw [hedges]
    by_cases hg : ppGuard q b a
    · have hg2 : ppGuard q a b := (ppGuard_symm q b a).mp hg
      have hf1 : ¬ ppOnFlat q b a := fun h => hs1 (ppOnFlat_onSeg q b a h)
      have hf2 : ¬ ppOnFlat q a b := fun h => hs2 (ppOnFlat_onSeg q a b h)
      simp [pptAux, hg, hg2, hf1, hf2]
    · have hg2 : ¬ ppGuard q a b := fun h => hg ((ppGuard_symm q a b).mp h)
      have hd2 : ¬ ppCross q a b = 0 := fun h => hs2 (noGuard_cross_zero_onSeg q a b hg2 h)
      have hd1 : ¬ ppCross q b a = 0 := by
        rw [ppCross_swap q b a]
        simpa using hd2
      have hab : a.2 ≠ b.2 := by
        unfold ppGuard at hg2
        push_neg at hg2
        omega
      have hii : (if 0 < (if a.2 < b.2 then -ppCross q b a else ppCross q b a) then (1:Nat) else 0)
          = (if 0 < (if b.2 < a.2 then -ppCross q a b else ppCross q a b) then (1:Nat) else 0) := by
        rw [ppCross_swap q b a, neg_neg]
        rcases lt_or_gt_of_ne hab with hlt | hgt
        · rw [if_pos hlt, if_neg (by omega : ¬ b.2 < a.2)]
        · rw [if_neg (by omega : ¬ a.2 < b.2), if_pos (by omega : b.2 < a.2)]
      simp only [pptAux, if_neg hg, if_neg hg2, if_neg hd1, if_neg hd2]
      rw [hii]
      have hpar : ∀ i : Nat, (0 + i + i) % 2 = 0 := by omega
      rw [if_pos (hpar _)]
      decide

/-- Witness for C7 amended: the off-segment point `(5, 7)` against the
2-point polygon `[(0,0), (2,0)]`. -/
theorem degenerate_polygon_noncontaining_witness :
    (([((0:Int), (0:Int)), (2, 0)] : List IPt).length = 1 ∨
      ([((0:Int), (0:Int)), (2, 0)] : List IPt).length = 2) ∧
    ¬ OnBoundary (5, 7) [((0:Int), (0:Int)), (2, 0)] ∧
    point_in_zone (5, 7) [((0:Int), (0:Int)), (2, 0)] = false :=
  ⟨by decide, by decide,
   degenerate_polygon_noncontaining [((0:Int), (0:Int)), (2, 0)] (5, 7)
     (by decide) (by decide)⟩
